import Mathlib

/-!
Verification of the `irc` package (`src/irc/irc.go`) of oremj/go-ircbot.

Go strings are modelled as `List Char` (the lines handled here are split only
at ASCII separator characters, where Go's byte indices and character indices
coincide).  Go's `strings.Index`, `strings.SplitN(s, sep, 2)` and
`strings.Split(s, " ")` are modelled by `fi`/`fi2`, `split2c`/`split2s` and
`splitAll` below.  A Go slice of strings is modelled as
`Option (List (List Char))`, `none` standing for the nil slice (the zero value
of `Params` in `&Message{Raw: l}` before `parseParams` assigns it).

`ParseMessage` is modelled twice, faithfully to the same Go source:
`parseMessage` is the total function (Go slice expressions written with
`List.take`/`List.drop`), and `parseMessageC` additionally performs the bounds
checks that Go makes at every string-index and slice expression, returning
`none` where Go would panic.  The theorem `parseMessageC_eq_parseMessage`
shows the checks never fire.
-/

/-- Characters of a string literal, used to write concrete IRC lines. -/
def str (s : String) : List Char := s.data

/-- First index of character `c` in `s`; models the search done by Go's
`strings.Index(s, c)` for a one-character separator. -/
def fi (c : Char) : List Char → Option Nat
  | [] => none
  | a :: s => if a = c then some 0 else (fi c s).map (· + 1)

/-- First index of the two-character pattern `a b` in `s`; models Go's
`strings.Index(s, sep)` for the two-character separator `" :"`. -/
def fi2 (a b : Char) : List Char → Option Nat
  | [] => none
  | [_] => none
  | x :: y :: s => if x = a ∧ y = b then some 0 else (fi2 a b (y :: s)).map (· + 1)

/-- Go `strings.Index(s, string(c))` with its `-1` not-found sentinel. -/
def goIndex (s : List Char) (c : Char) : Int :=
  match fi c s with
  | some i => (i : Int)
  | none => -1

/-- Go `strings.SplitN(s, string(c), 2)` wrapped as in the `split2` closure of
`ParseMessage`: the part before the first separator and the part after it
(`""` when the separator does not occur). -/
def split2c (c : Char) (s : List Char) : List Char × List Char :=
  match fi c s with
  | some i => (s.take i, s.drop (i + 1))
  | none => (s, [])

/-- Go `strings.SplitN(s, sep, 2)` for the two-character separator `a b`,
wrapped as in the `split2` closure of `ParseMessage`. -/
def split2s (a b : Char) (s : List Char) : List Char × List Char :=
  match fi2 a b s with
  | some i => (s.take i, s.drop (i + 2))
  | none => (s, [])

/-- Go `strings.Split(s, " ")`: split at every space; `Split("", " ") = [""]`. -/
def splitAll : List Char → List (List Char)
  | [] => [[]]
  | c :: s =>
    if c = ' ' then [] :: splitAll s
    else
      match splitAll s with
      | [] => [[c]]
      | p :: ps => (c :: p) :: ps

/-- Inverse of `splitAll`: join with single spaces ("params joined by space"). -/
def joinSp : List (List Char) → List Char
  | [] => []
  | [p] => p
  | p :: ps => p ++ ' ' :: joinSp ps

/-- Go struct `Prefix` of `src/irc/irc.go` (fields `Name`, `User`, `Host`). -/
structure Pfx where
  Name : List Char
  User : List Char
  Host : List Char
deriving DecidableEq, Repr

/-- Go struct `Message` of `src/irc/irc.go`.  `Params` is a Go slice, hence
`Option`: `none` is the nil slice. -/
structure Message where
  Command : List Char
  Params : Option (List (List Char))
  Pfx : Pfx
  Raw : List Char
  Txt : List Char
deriving DecidableEq, Repr

/-- The decomposition of the prefix body done by the `parsePrefix` closure
after `head, tail := split2(l[1:], " ")` (`src/irc/irc.go:57-67`): locate `!`
and `@` in `head`, then the two conditional assignments to `prefix.Host` and
`prefix.User`, each slicing `head` down.  The `let` chain mirrors Go's
sequential mutation of `head`. -/
def pfxCore (head0 : List Char) : Pfx :=
  let user := goIndex head0 '!'
  let host := goIndex head0 '@'
  let hostStr := if host > user then head0.drop (host.toNat + 1) else []
  let head1 := if host > user then head0.take host.toNat else head0
  let userStr := if user > 0 then head1.drop (user.toNat + 1) else []
  let head2 := if user > 0 then head1.take user.toNat else head1
  ⟨head2, userStr, hostStr⟩

/-- The `parsePrefix` closure of `ParseMessage` (`src/irc/irc.go:50-69`):
returns the parsed prefix and the remaining tail. -/
def parsePfx (l : List Char) : Pfx × List Char :=
  if l.head? ≠ some ':' then (⟨[], [], []⟩, l)
  else
    let ht := split2c ' ' (l.drop 1)
    (pfxCore ht.1, ht.2)

/-- The `parseCommand` closure of `ParseMessage` (`src/irc/irc.go:70-72`). -/
def parseCommand (l : List Char) : List Char × List Char :=
  split2c ' ' l

/-- The `parseParams` closure of `ParseMessage` (`src/irc/irc.go:73-80`). -/
def parseParams (l : List Char) : List (List Char) × List Char :=
  if l = [] ∨ l.head? = some ':' then ([], l)
  else
    let ht := split2s ' ' ':' l
    (splitAll ht.1, ht.2)

/-- `ParseMessage` (`src/irc/irc.go:42-91`): prefix, command, params, then the
optional leading `':'` of the trailing text is stripped. -/
def parseMessage (l : List Char) : Message :=
  let pr := parsePfx l
  let ct := parseCommand pr.2
  let ps := parseParams ct.2
  let txt := if ps.2.head? = some ':' then ps.2.drop 1 else ps.2
  ⟨ct.1, some ps.1, pr.1, l, txt⟩

/-- Go slice expression `s[i:]` with Go's bounds check (panic modelled as
`none`; a negative index also panics). -/
def dropC (s : List Char) (i : Int) : Option (List Char) :=
  if 0 ≤ i ∧ i ≤ (s.length : Int) then some (s.drop i.toNat) else none

/-- Go slice expression `s[:i]` with Go's bounds check. -/
def takeC (s : List Char) (i : Int) : Option (List Char) :=
  if 0 ≤ i ∧ i ≤ (s.length : Int) then some (s.take i.toNat) else none

/-- `pfxCore` with every Go slice expression bounds-checked. -/
def pfxCoreC (head0 : List Char) : Option Pfx := do
  let user := goIndex head0 '!'
  let host := goIndex head0 '@'
  let hostStr ← if host > user then dropC head0 (host + 1) else pure []
  let head1 ← if host > user then takeC head0 host else pure head0
  let userStr ← if user > 0 then dropC head1 (user + 1) else pure []
  let head2 ← if user > 0 then takeC head1 user else pure head1
  some ⟨head2, userStr, hostStr⟩

/-- `parsePrefix` with every Go slice expression bounds-checked. -/
def parsePfxC (l : List Char) : Option (Pfx × List Char) :=
  if l.head? ≠ some ':' then some (⟨[], [], []⟩, l)
  else do
    let l1 ← dropC l 1
    let ht := split2c ' ' l1
    let p ← pfxCoreC ht.1
    some (p, ht.2)

/-- `ParseMessage` with every Go slice expression bounds-checked. -/
def parseMessageC (l : List Char) : Option Message := do
  let pr ← parsePfxC l
  let ct := parseCommand pr.2
  let ps := parseParams ct.2
  let txt ← if ps.2.head? = some ':' then dropC ps.2 1 else pure ps.2
  some ⟨ct.1, some ps.1, pr.1, l, txt⟩

/-- The serialization fixed by the specification's round-trip property:
`[":" name ["!" user] ["@" host] " "] command [" " params joined by space]
[" :" text]`, each optional part included exactly when non-empty. -/
def serMsg (m : Message) : List Char :=
  (if m.Pfx.Name = [] ∧ m.Pfx.User = [] ∧ m.Pfx.Host = [] then []
   else ':' :: m.Pfx.Name
        ++ (if m.Pfx.User = [] then [] else '!' :: m.Pfx.User)
        ++ (if m.Pfx.Host = [] then [] else '@' :: m.Pfx.Host)
        ++ [' '])
  ++ m.Command
  ++ (match m.Params with
      | some ps => if ps = [] then [] else ' ' :: joinSp ps
      | none => [])
  ++ (if m.Txt = [] then [] else ' ' :: ':' :: m.Txt)

/-- Equality of the four fields the round-trip property speaks about
(`Raw` is deliberately not compared). -/
def fieldsEq (m m' : Message) : Prop :=
  m.Command = m'.Command ∧ m.Params = m'.Params ∧ m.Pfx = m'.Pfx ∧ m.Txt = m'.Txt

instance (m m' : Message) : Decidable (fieldsEq m m') := by
  unfold fieldsEq; infer_instance

/-- The edge cases in which the serialization of `serMsg` loses information
about a parsed message (each is reachable from a pathological input line). -/
def badMsg (m : Message) : Prop :=
  (m.Params = some [[]] ∧ m.Txt = []) ∨
  (m.Pfx.Name = [] ∧ m.Pfx.User = [] ∧ m.Pfx.Host = [] ∧
    m.Command.head? = some ':') ∨
  (m.Pfx.User = [] ∧ m.Pfx.Host ≠ [] ∧ m.Pfx.Name ≠ [] ∧
    '!' ∉ m.Pfx.Name ∧ '!' ∈ m.Pfx.Host) ∨
  (m.Pfx.User = [] ∧ m.Pfx.Host = [] ∧ '@' ∈ m.Pfx.Name) ∨
  (m.Params ≠ some [] ∧ m.Txt.head? = some ':')

instance (m : Message) : Decidable (badMsg m) := by
  unfold badMsg; infer_instance

/-!
The connection object `Conn` (`src/irc/irc.go:94-156`).  The underlying
`io.ReadWriteCloser` together with the `bufio.Reader` wrapped around it is
modelled by explicit state: `closed` (set by `Close`), `buf` (the bytes the
`bufio.Reader` has buffered but not yet handed out), `input` (the bytes the
peer has sent that are still in the transport), and `wire` (the chunks passed
to the underlying stream's `Write`, in order).  `bufio.Reader.ReadString('\n')`
returns the buffered data up to and including the first `'\n'` without
touching the transport; otherwise it reads from the transport, which fails
when the connection is closed.  Blocking (no full line available on an open
stream) and clean EOF both surface as errors to `ReadMsg` and are modelled as
`none`.  The two `sync.Mutex` fields serialize calls and have no sequential
content, so they do not appear in the state.
-/
structure Conn where
  closed : Bool
  buf : List Char
  input : List Char
  wire : List (List Char)
deriving DecidableEq, Repr

/-- `bufio.Reader.ReadString('\n')` as used by `ReadMsg`: the returned line
includes the terminating `'\n'`. -/
def Conn.readLine (c : Conn) : Option (List Char × Conn) :=
  match fi '\n' c.buf with
  | some i => some (c.buf.take (i + 1), { c with buf := c.buf.drop (i + 1) })
  | none =>
    if c.closed then none
    else
      let data := c.buf ++ c.input
      match fi '\n' data with
      | some i => some (data.take (i + 1), { c with buf := data.drop (i + 1), input := [] })
      | none => none

/-- `Conn.ReadMsg` (`src/irc/irc.go:129-137`): read one line, parse it. -/
def Conn.readMsg (c : Conn) : Option (Message × Conn) :=
  (c.readLine).map (fun p => (parseMessage p.1, p.2))

/-- `Conn.Write` (`src/irc/irc.go:140-145`): one call to the underlying
stream's `Write`, failing when the stream is closed. -/
def Conn.write (c : Conn) (msg : List Char) : Option (Nat × Conn) :=
  if c.closed then none
  else some (msg.length, { c with wire := c.wire ++ [msg] })

/-- `Conn.Send` (`src/irc/irc.go:148-151`): append `"\r\n"` and delegate to
`Write`, propagating only the error. -/
def Conn.send (c : Conn) (l : List Char) : Option Conn :=
  (c.write (l ++ ['\r', '\n'])).map (·.2)

/-- `Conn.Close` (`src/irc/irc.go:154-156`): close the underlying stream. -/
def Conn.close (c : Conn) : Conn := { c with closed := true }

/-! ### Facts about the index and split primitives -/

theorem fi_eq_none {c : Char} {s : List Char} : fi c s = none ↔ c ∉ s := by
  induction s with
  | nil => simp [fi]
  | cons a s ih =>
    rw [fi]
    by_cases h : a = c
    · subst h; simp
    · rw [if_neg h, Option.map_eq_none', ih, List.mem_cons]
      constructor
      · intro hn hor
        cases hor with
        | inl h1 => exact h h1.symm
        | inr h1 => exact hn h1
      · intro hn hm
        exact hn (Or.inr hm)

theorem fi_some {c : Char} {s : List Char} {k : Nat} (h : fi c s = some k) :
    k < s.length ∧ c ∉ s.take k ∧ s.drop k = c :: s.drop (k + 1) := by
  induction s generalizing k with
  | nil => simp [fi] at h
  | cons a s ih =>
    by_cases ha : a = c
    · simp only [fi, if_pos ha, Option.some.injEq] at h
      subst h
      simp [ha]
    · simp only [fi, if_neg ha, Option.map_eq_some'] at h
      obtain ⟨k', hk', rfl⟩ := h
      obtain ⟨h1, h2, h3⟩ := ih hk'
      refine ⟨by simpa using h1, ?_, by simpa using h3⟩
      simp only [List.take_succ_cons, List.mem_cons, not_or]
      exact ⟨Ne.symm ha, h2⟩

theorem fi_append_cons {c : Char} {xs : List Char} (ys : List Char) (h : c ∉ xs) :
    fi c (xs ++ c :: ys) = some xs.length := by
  induction xs with
  | nil => simp [fi]
  | cons a xs ih =>
    have ha : ¬ a = c := fun hac => h (by simp [hac])
    have h' : c ∉ xs := fun hm => h (by simp [hm])
    simp [fi, ha, ih h']

theorem fi_append_left {c : Char} {xs : List Char} {k : Nat} (ys : List Char)
    (h : fi c xs = some k) : fi c (xs ++ ys) = some k := by
  induction xs generalizing k with
  | nil => simp [fi] at h
  | cons a xs ih =>
    by_cases ha : a = c
    · simp only [fi, ha, if_pos rfl, Option.some.injEq] at h
      simp [fi, ha, ← h]
    · simp only [fi, if_neg ha, Option.map_eq_some'] at h
      obtain ⟨k', hk', rfl⟩ := h
      simp [fi, ha, ih hk']

theorem fi_head {c : Char} {s : List Char} (h : fi c s = some 0) :
    s.head? = some c := by
  have := (fi_some h).2.2
  simpa using congrArg List.head? this

theorem fi_of_not_mem {c : Char} {s : List Char} (h : c ∉ s) : fi c s = none :=
  fi_eq_none.mpr h

theorem fi2_eq_none_of_not_mem {a b : Char} {s : List Char} (h : a ∉ s) :
    fi2 a b s = none := by
  induction s with
  | nil => rfl
  | cons x s ih =>
    cases s with
    | nil => rfl
    | cons y t =>
      have hx : ¬ (x = a ∧ y = b) := fun ⟨hxa, _⟩ => h (by simp [hxa])
      have h' : a ∉ y :: t := fun hm => h (by simp [List.mem_cons] at hm ⊢; tauto)
      simp [fi2, hx, ih h']

theorem fi2_append_none {a b : Char} {xs ys : List Char} (h : a ∉ xs)
    (h2 : fi2 a b ys = none) : fi2 a b (xs ++ ys) = none := by
  induction xs with
  | nil => simpa
  | cons x xs ih =>
    have hx : ¬ x = a := fun hxa => h (by simp [hxa])
    have hrest : fi2 a b (xs ++ ys) = none := ih (fun hm => h (by simp [hm]))
    rw [List.cons_append]
    cases hxy : xs ++ ys with
    | nil => rfl
    | cons z zs =>
      rw [hxy] at hrest
      simp [fi2, hx, hrest]

theorem fi2_append_self {a b : Char} {xs : List Char} (ys : List Char) (hba : b ≠ a)
    (hx : fi2 a b xs = none) : fi2 a b (xs ++ a :: b :: ys) = some xs.length := by
  induction xs with
  | nil => simp [fi2]
  | cons x xs ih =>
    cases xs with
    | nil =>
      have hc : ¬ (x = a ∧ a = b) := fun ⟨_, hab⟩ => hba hab.symm
      simp [fi2, hc]
    | cons y t =>
      have hc : ¬ (x = a ∧ y = b) := by
        intro hxy
        simp [fi2, hxy] at hx
      have ht : fi2 a b (y :: t) = none := by
        rw [fi2, if_neg hc, Option.map_eq_none'] at hx
        exact hx
      have := ih ht
      rw [List.cons_append, List.cons_append]
      rw [List.cons_append] at this
      rw [fi2, if_neg hc, this]
      rfl

theorem fi2_some_take {a b : Char} {s : List Char} {k : Nat} (h : fi2 a b s = some k) :
    fi2 a b (s.take k) = none := by
  induction s generalizing k with
  | nil => simp [fi2] at h
  | cons x s ih =>
    cases s with
    | nil => simp [fi2] at h
    | cons y t =>
      by_cases hc : x = a ∧ y = b
      · simp only [fi2, if_pos hc, Option.some.injEq] at h
        subst h
        rfl
      · simp only [fi2, if_neg hc, Option.map_eq_some'] at h
        obtain ⟨k', hk', rfl⟩ := h
        have := ih hk'
        rw [List.take_succ_cons]
        cases hk : k' with
        | zero =>
          subst hk
          simp only [List.take_zero]
          rfl
        | succ n =>
          subst hk
          rw [List.take_succ_cons] at this ⊢
          cases hn : (List.take n t) with
          | nil => simp [fi2, hc]
          | cons z zs =>
            rw [hn] at this
            rw [fi2, if_neg hc, Option.map_eq_none']
            exact this

theorem head?_take {s : List Char} {k : Nat} :
    (s.take k).head? = if k = 0 then none else s.head? := by
  cases k with
  | zero => simp
  | succ n =>
    cases s with
    | nil => simp
    | cons a s => simp

theorem take_len_append {α : Type} (xs ys : List α) : (xs ++ ys).take xs.length = xs := by
  induction xs with
  | nil => simp
  | cons a xs ih => simp [ih]

theorem drop_append_cons {α : Type} (xs : List α) (c : α) (ys : List α) :
    (xs ++ c :: ys).drop (xs.length + 1) = ys := by
  induction xs with
  | nil => simp
  | cons a xs ih => simp [ih]

theorem drop_append_cons2 {α : Type} (xs : List α) (a b : α) (ys : List α) :
    (xs ++ a :: b :: ys).drop (xs.length + 2) = ys := by
  induction xs with
  | nil => simp
  | cons x xs ih => simp [ih]

theorem split2c_fst_not_mem (c : Char) (s : List Char) : c ∉ (split2c c s).1 := by
  unfold split2c
  cases h : fi c s with
  | none => exact fi_eq_none.mp h
  | some i => exact (fi_some h).2.1

theorem split2c_not_mem {c : Char} {s : List Char} (h : c ∉ s) : split2c c s = (s, []) := by
  unfold split2c
  rw [fi_of_not_mem h]

theorem split2c_eq_some {c : Char} {s : List Char} {i : Nat} (h : fi c s = some i) :
    split2c c s = (s.take i, s.drop (i + 1)) := by
  unfold split2c
  rw [h]

theorem split2c_append {c : Char} {xs : List Char} (ys : List Char) (h : c ∉ xs) :
    split2c c (xs ++ c :: ys) = (xs, ys) := by
  rw [split2c_eq_some (fi_append_cons ys h), take_len_append, drop_append_cons]

theorem split2s_fst_none (a b : Char) (s : List Char) : fi2 a b ((split2s a b s).1) = none := by
  unfold split2s
  cases h : fi2 a b s with
  | none => exact h
  | some i => exact fi2_some_take h

theorem split2s_none {a b : Char} {s : List Char} (h : fi2 a b s = none) :
    split2s a b s = (s, []) := by
  unfold split2s
  rw [h]

theorem split2s_eq_some {a b : Char} {s : List Char} {i : Nat} (h : fi2 a b s = some i) :
    split2s a b s = (s.take i, s.drop (i + 2)) := by
  unfold split2s
  rw [h]

theorem split2s_append {J : List Char} (t : List Char) (h : fi2 ' ' ':' J = none) :
    split2s ' ' ':' (J ++ ' ' :: ':' :: t) = (J, t) := by
  rw [split2s_eq_some (fi2_append_self t (by decide) h), take_len_append, drop_append_cons2]

theorem joinSp_cons_cons (p q : List Char) (r : List (List Char)) :
    joinSp (p :: q :: r) = p ++ ' ' :: joinSp (q :: r) := rfl

theorem splitAll_ne_nil (s : List Char) : splitAll s ≠ [] := by
  cases s with
  | nil => simp [splitAll]
  | cons c s =>
    rw [splitAll]
    by_cases h : c = ' '
    · simp [h]
    · rw [if_neg h]
      cases splitAll s <;> simp

theorem splitAll_no_space {p : List Char} (h : ' ' ∉ p) : splitAll p = [p] := by
  induction p with
  | nil => rfl
  | cons c p ih =>
    have hc : ¬ c = ' ' := fun hc => h (by simp [hc])
    rw [splitAll, if_neg hc, ih (fun hm => h (by simp [hm]))]

theorem splitAll_append_space {p : List Char} (ys : List Char) (h : ' ' ∉ p) :
    splitAll (p ++ ' ' :: ys) = p :: splitAll ys := by
  induction p with
  | nil => simp [splitAll]
  | cons c p ih =>
    have hc : ¬ c = ' ' := fun hc => h (by simp [hc])
    rw [List.cons_append, splitAll, if_neg hc, ih (fun hm => h (by simp [hm]))]

theorem splitAll_spacefree {s : List Char} : ∀ p ∈ splitAll s, ' ' ∉ p := by
  induction s with
  | nil =>
    intro p hp
    simp [splitAll] at hp
    simp [hp]
  | cons c s ih =>
    intro p hp
    rw [splitAll] at hp
    by_cases hc : c = ' '
    · rw [if_pos hc] at hp
      rcases List.mem_cons.mp hp with h1 | h1
      · simp [h1]
      · exact ih p h1
    · rw [if_neg hc] at hp
      cases hq : splitAll s with
      | nil => exact absurd hq (splitAll_ne_nil s)
      | cons q qs =>
        rw [hq] at hp
        rcases List.mem_cons.mp hp with h1 | h1
        · subst h1
          intro hm
          rcases List.mem_cons.mp hm with h2 | h2
          · exact hc h2.symm
          · exact ih q (hq ▸ List.mem_cons_self q qs) h2
        · exact ih p (hq ▸ List.mem_cons_of_mem q h1)

theorem splitAll_joinSp {ps : List (List Char)} (hne : ps ≠ [])
    (hsf : ∀ p ∈ ps, ' ' ∉ p) : splitAll (joinSp ps) = ps := by
  induction ps with
  | nil => exact absurd rfl hne
  | cons p ps ih =>
    cases ps with
    | nil => exact splitAll_no_space (hsf p (List.mem_cons_self p []))
    | cons q r =>
      rw [joinSp_cons_cons, splitAll_append_space _ (hsf p (List.mem_cons_self p _))]
      rw [ih (List.cons_ne_nil q r) (fun x hx => hsf x (List.mem_cons_of_mem p hx))]

theorem splitAll_head_no_colon {s : List Char} {q : List Char} {qs : List (List Char)}
    (hs : splitAll s = q :: qs) (h : s.head? ≠ some ':') : q.head? ≠ some ':' := by
  cases s with
  | nil =>
    rw [splitAll] at hs
    cases hs
    simp
  | cons c s =>
    rw [splitAll] at hs
    by_cases hc : c = ' '
    · rw [if_pos hc] at hs
      cases hs
      simp
    · rw [if_neg hc] at hs
      cases hq : splitAll s with
      | nil => exact absurd hq (splitAll_ne_nil s)
      | cons q' qs' =>
        rw [hq] at hs
        cases hs
        simpa using h

theorem splitAll_drop_no_colon {s : List Char} (h : fi2 ' ' ':' s = none) :
    ∀ p ∈ (splitAll s).drop 1, p.head? ≠ some ':' := by
  induction s with
  | nil => simp [splitAll]
  | cons c s ih =>
    intro p hp
    rw [splitAll] at hp
    cases s with
    | nil =>
      by_cases hc : c = ' '
      · rw [if_pos hc] at hp
        simp [splitAll] at hp
        simp [hp]
      · rw [if_neg hc] at hp
        simp [splitAll] at hp
    | cons y t =>
      have hcy : ¬ (c = ' ' ∧ y = ':') := by
        intro hxy
        simp [fi2, hxy] at h
      have hrest : fi2 ' ' ':' (y :: t) = none := by
        rw [fi2, if_neg hcy, Option.map_eq_none'] at h
        exact h
      by_cases hc : c = ' '
      · rw [if_pos hc] at hp
        rw [List.drop_one, List.tail_cons] at hp
        cases hq : splitAll (y :: t) with
        | nil => exact absurd hq (splitAll_ne_nil _)
        | cons q qs =>
          rw [hq] at hp
          rcases List.mem_cons.mp hp with h1 | h1
          · subst h1
            refine splitAll_head_no_colon hq ?_
            intro hy
            rw [List.head?_cons] at hy
            exact hcy ⟨hc, Option.some.inj hy⟩
          · refine ih hrest p ?_
            rw [hq, List.drop_one, List.tail_cons]
            exact h1
      · rw [if_neg hc] at hp
        cases hq : splitAll (y :: t) with
        | nil => exact absurd hq (splitAll_ne_nil _)
        | cons q qs =>
          rw [hq] at hp
          rw [List.drop_one, List.tail_cons] at hp
          refine ih hrest p ?_
          rw [hq, List.drop_one, List.tail_cons]
          exact hp

theorem joinSp_head_no_colon {ps : List (List Char)}
    (h : ∀ p ∈ ps, p.head? ≠ some ':') : (joinSp ps).head? ≠ some ':' := by
  cases ps with
  | nil => simp [joinSp]
  | cons p ps =>
    cases ps with
    | nil => exact h p (List.mem_cons_self p [])
    | cons q r =>
      rw [joinSp_cons_cons]
      cases p with
      | nil => simp
      | cons a p' =>
        have := h (a :: p') (List.mem_cons_self _ _)
        simpa using this

theorem joinSp_fi2_none {ps : List (List Char)}
    (h : ∀ p ∈ ps, ' ' ∉ p ∧ p.head? ≠ some ':') : fi2 ' ' ':' (joinSp ps) = none := by
  induction ps with
  | nil => rfl
  | cons p ps ih =>
    cases ps with
    | nil => exact fi2_eq_none_of_not_mem (h p (List.mem_cons_self p [])).1
    | cons q r =>
      rw [joinSp_cons_cons]
      refine fi2_append_none (h p (List.mem_cons_self p _)).1 ?_
      cases hJ : joinSp (q :: r) with
      | nil => rfl
      | cons z zs =>
        have hz : ¬ z = ':' := by
          have hhc : (joinSp (q :: r)).head? ≠ some ':' :=
            joinSp_head_no_colon (fun x hx => (h x (List.mem_cons_of_mem p hx)).2)
          rw [hJ] at hhc
          simpa using hhc
        have hrest : fi2 ' ' ':' (z :: zs) = none := by
          rw [← hJ]
          exact ih (fun x hx => h x (List.mem_cons_of_mem p hx))
        rw [fi2, if_neg (fun hc => hz hc.2), Option.map_eq_none']
        exact hrest

theorem joinSp_ne_nil {ps : List (List Char)} (h1 : ps ≠ []) (h2 : ps ≠ [[]]) :
    joinSp ps ≠ [] := by
  cases ps with
  | nil => exact absurd rfl h1
  | cons p ps =>
    cases ps with
    | nil =>
      rw [joinSp]
      intro hp
      exact h2 (by rw [hp])
    | cons q r => simp [joinSp]

/-! ### Invariants satisfied by every parsed message -/

theorem goIndex_none {c : Char} {s : List Char} (h : fi c s = none) : goIndex s c = -1 := by
  unfold goIndex
  rw [h]

theorem goIndex_some {c : Char} {s : List Char} {i : Nat} (h : fi c s = some i) :
    goIndex s c = (i : Int) := by
  unfold goIndex
  rw [h]

theorem mem_take_of_fi {c : Char} {s : List Char} {k j : Nat} (h : fi c s = some k)
    (hj : k < j) : c ∈ s.take j := by
  obtain ⟨hlt, -, hdrop⟩ := fi_some h
  have hs : s = s.take k ++ c :: s.drop (k + 1) := by
    conv_lhs => rw [← List.take_append_drop k s]
    rw [hdrop]
  conv_lhs => rw [hs]
  rw [List.take_append_eq_append_take, List.mem_append]
  right
  have hlen : (s.take k).length = k := by
    rw [List.length_take]
    omega
  rw [hlen]
  have hjk : j - k = (j - k - 1) + 1 := by omega
  rw [hjk, List.take_succ_cons]
  exact List.mem_cons_self _ _

theorem pfxCore_eq (head0 : List Char) :
    pfxCore head0 =
      ⟨(if goIndex head0 '!' > 0
          then (if goIndex head0 '@' > goIndex head0 '!'
                then head0.take (goIndex head0 '@').toNat else head0).take
            (goIndex head0 '!').toNat
          else (if goIndex head0 '@' > goIndex head0 '!'
                then head0.take (goIndex head0 '@').toNat else head0)),
       (if goIndex head0 '!' > 0
          then (if goIndex head0 '@' > goIndex head0 '!'
                then head0.take (goIndex head0 '@').toNat else head0).drop
            ((goIndex head0 '!').toNat + 1)
          else []),
       (if goIndex head0 '@' > goIndex head0 '!'
          then head0.drop ((goIndex head0 '@').toNat + 1) else [])⟩ := rfl

theorem pfxCore_none_none {head0 : List Char} (h1 : fi '!' head0 = none)
    (h2 : fi '@' head0 = none) : pfxCore head0 = ⟨head0, [], []⟩ := by
  rw [pfxCore_eq, goIndex_none h1, goIndex_none h2]
  norm_num

theorem pfxCore_user_none {head0 : List Char} {ku : Nat} (h1 : fi '!' head0 = some ku)
    (h2 : fi '@' head0 = none) :
    pfxCore head0 = ⟨if 0 < ku then head0.take ku else head0,
      if 0 < ku then head0.drop (ku + 1) else [], []⟩ := by
  rw [pfxCore_eq, goIndex_none h2, goIndex_some h1]
  have hc : ¬ ((-1 : Int) > (ku : Int)) := by omega
  rw [if_neg hc, if_neg hc]
  by_cases hk : 0 < ku
  · have hgt : (ku : Int) > 0 := by omega
    rw [if_pos hgt, if_pos hk, if_pos hgt, if_pos hk]
    simp [Int.toNat_natCast]
  · have hgt : ¬ ((ku : Int) > 0) := by omega
    rw [if_neg hgt, if_neg hk, if_neg hgt, if_neg hk]

theorem pfxCore_none_host {head0 : List Char} {kh : Nat} (h1 : fi '!' head0 = none)
    (h2 : fi '@' head0 = some kh) :
    pfxCore head0 = ⟨head0.take kh, [], head0.drop (kh + 1)⟩ := by
  rw [pfxCore_eq, goIndex_none h1, goIndex_some h2]
  have hc : (kh : Int) > -1 := by omega
  have hu : ¬ ((-1 : Int) > 0) := by omega
  rw [if_pos hc, if_pos hc, if_neg hu, if_neg hu]
  simp [Int.toNat_natCast]

theorem pfxCore_both_gt {head0 : List Char} {ku kh : Nat} (h1 : fi '!' head0 = some ku)
    (h2 : fi '@' head0 = some kh) (hgt : ku < kh) :
    pfxCore head0 = ⟨if 0 < ku then (head0.take kh).take ku else head0.take kh,
      if 0 < ku then (head0.take kh).drop (ku + 1) else [],
      head0.drop (kh + 1)⟩ := by
  rw [pfxCore_eq, goIndex_some h1, goIndex_some h2]
  have hc : (kh : Int) > (ku : Int) := by omega
  rw [if_pos hc, if_pos hc]
  by_cases hk : 0 < ku
  · have hgt' : (ku : Int) > 0 := by omega
    rw [if_pos hgt', if_pos hk, if_pos hgt', if_pos hk]
    simp [Int.toNat_natCast]
  · have hgt' : ¬ ((ku : Int) > 0) := by omega
    rw [if_neg hgt', if_neg hk, if_neg hgt', if_neg hk]
    simp [Int.toNat_natCast]

theorem pfxCore_both_le {head0 : List Char} {ku kh : Nat} (h1 : fi '!' head0 = some ku)
    (h2 : fi '@' head0 = some kh) (hle : kh ≤ ku) :
    pfxCore head0 = ⟨if 0 < ku then head0.take ku else head0,
      if 0 < ku then head0.drop (ku + 1) else [], []⟩ := by
  rw [pfxCore_eq, goIndex_some h1, goIndex_some h2]
  have hc : ¬ ((kh : Int) > (ku : Int)) := by omega
  rw [if_neg hc, if_neg hc]
  by_cases hk : 0 < ku
  · have hgt' : (ku : Int) > 0 := by omega
    rw [if_pos hgt', if_pos hk, if_pos hgt', if_pos hk]
    simp [Int.toNat_natCast]
  · have hgt' : ¬ ((ku : Int) > 0) := by omega
    rw [if_neg hgt', if_neg hk, if_neg hgt', if_neg hk]

theorem fi_ne_of_ne {c d : Char} {s : List Char} {i j : Nat} (hc : fi c s = some i)
    (hd : fi d s = some j) (hne : c ≠ d) : i ≠ j := by
  intro hij
  subst hij
  have h1 := (fi_some hc).2.2
  have h2 := (fi_some hd).2.2
  rw [h1] at h2
  exact hne (List.cons.inj h2).1

theorem take_ne_nil_of_pos {s : List Char} {k : Nat} (hk : 0 < k) (hs : 0 < s.length) :
    s.take k ≠ [] := by
  intro h
  have hlen := congrArg List.length h
  rw [List.length_take] at hlen
  simp only [List.length_nil] at hlen
  omega

/-- Structural facts satisfied by every prefix `parsePrefix` can produce,
provided the prefix body contains no space (which `split2` guarantees). -/
def PfxInv (p : Pfx) : Prop :=
  (' ' ∉ p.Name ∧ ' ' ∉ p.User ∧ ' ' ∉ p.Host) ∧
  (p.User ≠ [] → '!' ∉ p.Name ∧ p.Name ≠ []) ∧
  (p.Host ≠ [] → '@' ∉ p.Name ∧ '@' ∉ p.User) ∧
  (p.User = [] → '!' ∈ p.Name → p.Name.head? = some '!') ∧
  (p.User ≠ [] → p.Host = [] → '@' ∈ p.User → '@' ∈ p.Name) ∧
  (p.Name = [] → p.User = [] → p.Host ≠ [] → '!' ∉ p.Host)

theorem pfxCore_inv {head0 : List Char} (hsp : ' ' ∉ head0) : PfxInv (pfxCore head0) := by
  cases h1 : fi '!' head0 with
  | none =>
    cases h2 : fi '@' head0 with
    | none =>
      rw [pfxCore_none_none h1 h2]
      simp only [PfxInv]
      refine ⟨⟨hsp, by simp, by simp⟩, by simp, by simp, ?_, by simp, by simp⟩
      intro _ hmem
      exact absurd hmem (fi_eq_none.mp h1)
    | some kh =>
      rw [pfxCore_none_host h1 h2]
      simp only [PfxInv]
      refine ⟨⟨fun hm => hsp (List.take_subset _ _ hm), by simp,
        fun hm => hsp (List.drop_subset _ _ hm)⟩, by simp,
        fun _ => ⟨(fi_some h2).2.1, by simp⟩, ?_, by simp, ?_⟩
      · intro _ hmem
        exact absurd (List.take_subset _ _ hmem) (fi_eq_none.mp h1)
      · intro _ _ _ hm
        exact (fi_eq_none.mp h1) (List.drop_subset _ _ hm)
  | some ku =>
    cases h2 : fi '@' head0 with
    | none =>
      rw [pfxCore_user_none h1 h2]
      by_cases hk : 0 < ku
      · rw [if_pos hk, if_pos hk]
        simp only [PfxInv]
        refine ⟨⟨fun hm => hsp (List.take_subset _ _ hm),
          fun hm => hsp (List.drop_subset _ _ hm), by simp⟩,
          fun _ => ⟨(fi_some h1).2.1, take_ne_nil_of_pos hk (by have := (fi_some h1).1; omega)⟩,
          by simp, ?_, ?_, ?_⟩
        · intro _ hm
          exact absurd hm (fi_some h1).2.1
        · intro _ _ hm
          exact absurd (List.drop_subset _ _ hm) (fi_eq_none.mp h2)
        · intro _ _ h3
          exact absurd rfl h3
      · rw [if_neg hk, if_neg hk]
        have hk0 : ku = 0 := by omega
        subst hk0
        simp only [PfxInv]
        refine ⟨⟨hsp, by simp, by simp⟩, by simp, by simp, ?_, by simp, by simp⟩
        intro _ _
        exact fi_head h1
    | some kh =>
      rcases Nat.lt_or_ge ku kh with hlt | hge
      · rw [pfxCore_both_gt h1 h2 hlt]
        by_cases hk : 0 < ku
        · rw [if_pos hk, if_pos hk]
          have hTT : (head0.take kh).take ku = head0.take ku := by
            rw [List.take_take]
            congr 1
            omega
          simp only [PfxInv]
          refine ⟨⟨fun hm => hsp (List.take_subset _ _ (List.take_subset _ _ hm)),
            fun hm => hsp (List.take_subset _ _ (List.drop_subset _ _ hm)),
            fun hm => hsp (List.drop_subset _ _ hm)⟩,
            fun _ => ⟨?_, ?_⟩, fun _ => ⟨?_, ?_⟩, ?_, ?_, ?_⟩
          · rw [hTT]
            exact (fi_some h1).2.1
          · rw [hTT]
            exact take_ne_nil_of_pos hk (by have := (fi_some h1).1; omega)
          · intro hm
            exact (fi_some h2).2.1 (List.take_subset _ _ hm)
          · intro hm
            exact (fi_some h2).2.1 (List.drop_subset _ _ hm)
          · intro _ hm
            rw [hTT] at hm
            exact absurd hm (fi_some h1).2.1
          · intro _ _ hm
            exact absurd (List.drop_subset _ _ hm) (fi_some h2).2.1
          · intro hN
            rw [hTT] at hN
            exact absurd hN
              (take_ne_nil_of_pos hk (by have := (fi_some h1).1; omega))
        · rw [if_neg hk, if_neg hk]
          have hk0 : ku = 0 := by omega
          subst hk0
          simp only [PfxInv]
          refine ⟨⟨fun hm => hsp (List.take_subset _ _ hm), by simp,
            fun hm => hsp (List.drop_subset _ _ hm)⟩, by simp,
            fun _ => ⟨(fi_some h2).2.1, by simp⟩, ?_, by simp, ?_⟩
          · intro _ _
            rw [head?_take, if_neg (by omega)]
            exact fi_head h1
          · intro hN
            exact absurd hN
              (take_ne_nil_of_pos (by omega) (by have := (fi_some h2).1; omega))
      · have hne : ku ≠ kh := fi_ne_of_ne h1 h2 (by decide)
        have hlt2 : kh < ku := by omega
        have hk : 0 < ku := by omega
        rw [pfxCore_both_le h1 h2 (le_of_lt hlt2), if_pos hk, if_pos hk]
        simp only [PfxInv]
        refine ⟨⟨fun hm => hsp (List.take_subset _ _ hm),
          fun hm => hsp (List.drop_subset _ _ hm), by simp⟩,
          fun _ => ⟨(fi_some h1).2.1, take_ne_nil_of_pos hk (by have := (fi_some h1).1; omega)⟩,
          by simp, ?_, ?_, ?_⟩
        · intro _ hm
          exact absurd hm (fi_some h1).2.1
        · intro _ _ _
          exact mem_take_of_fi h2 hlt2
        · intro _ _ h3
          exact absurd rfl h3

theorem parsePfx_inv (l : List Char) : PfxInv (parsePfx l).1 := by
  unfold parsePfx
  by_cases h0 : l.head? ≠ some ':'
  · rw [if_pos h0]
    simp only [PfxInv]
    refine ⟨⟨by simp, by simp, by simp⟩, by simp, by simp, by simp, by simp, by simp⟩
  · rw [if_neg h0]
    exact pfxCore_inv (split2c_fst_not_mem ' ' (l.drop 1))

/-- Structural facts satisfied by every params slice `parseParams` can
produce: elements are space-free and none begins with `':'`. -/
def ParamsInv (ps : List (List Char)) : Prop :=
  ∀ p ∈ ps, ' ' ∉ p ∧ p.head? ≠ some ':'

theorem parseCommand_fst_spacefree (l : List Char) : ' ' ∉ (parseCommand l).1 :=
  split2c_fst_not_mem ' ' l

theorem parseParams_inv (l : List Char) : ParamsInv (parseParams l).1 := by
  unfold parseParams
  by_cases h0 : l = [] ∨ l.head? = some ':'
  · rw [if_pos h0]
    intro p hp
    simp at hp
  · rw [if_neg h0]
    push_neg at h0
    show ParamsInv (splitAll (split2s ' ' ':' l).1)
    intro p hp
    refine ⟨splitAll_spacefree p hp, ?_⟩
    have hfi2 : fi2 ' ' ':' (split2s ' ' ':' l).1 = none := split2s_fst_none ' ' ':' l
    have hhd : ((split2s ' ' ':' l).1).head? ≠ some ':' := by
      unfold split2s
      cases hf : fi2 ' ' ':' l with
      | none => exact h0.2
      | some i =>
        rw [head?_take]
        by_cases hi : i = 0
        · rw [if_pos hi]
          simp
        · rw [if_neg hi]
          exact h0.2
    cases hq : splitAll (split2s ' ' ':' l).1 with
    | nil => exact absurd hq (splitAll_ne_nil _)
    | cons q qs =>
      rw [hq] at hp
      rcases List.mem_cons.mp hp with h1 | h1
      · subst h1
        exact splitAll_head_no_colon hq hhd
      · refine splitAll_drop_no_colon hfi2 p ?_
        rw [hq, List.drop_one, List.tail_cons]
        exact h1

/-! ### Re-parsing a serialized message -/

theorem fi_mem_of_some {c : Char} {s : List Char} {k : Nat} (h : fi c s = some k) : c ∈ s := by
  by_contra hn
  rw [fi_of_not_mem hn] at h
  cases h

theorem fi_of_head {c : Char} {s : List Char} (h : s.head? = some c) : fi c s = some 0 := by
  cases s with
  | nil => simp at h
  | cons a s =>
    simp only [List.head?_cons, Option.some.injEq] at h
    subst h
    simp [fi]

theorem pfxCore_reparse {n u h : List Char} (hinv : PfxInv ⟨n, u, h⟩)
    (hC : ¬ (u = [] ∧ h ≠ [] ∧ n ≠ [] ∧ '!' ∉ n ∧ '!' ∈ h))
    (hD : ¬ (u = [] ∧ h = [] ∧ '@' ∈ n)) :
    pfxCore (n ++ (if u = [] then [] else '!' :: u) ++ (if h = [] then [] else '@' :: h))
      = ⟨n, u, h⟩ := by
  simp only [PfxInv] at hinv
  obtain ⟨⟨hspn, hspu, hsph⟩, hP2, hP3, hP4, hP5, hP6⟩ := hinv
  by_cases hu : u = []
  · by_cases hh : h = []
    · subst hu
      subst hh
      rw [if_pos rfl, if_pos rfl, List.append_nil, List.append_nil]
      have h2 : fi '@' n = none := fi_of_not_mem (fun hm => hD ⟨rfl, rfl, hm⟩)
      cases h1 : fi '!' n with
      | none => exact pfxCore_none_none h1 h2
      | some k =>
        have h0 : fi '!' n = some 0 := fi_of_head (hP4 rfl (fi_mem_of_some h1))
        have hk : k = 0 := by
          rw [h1] at h0
          exact Option.some.inj h0
        subst hk
        rw [pfxCore_user_none h1 h2, if_neg (by omega), if_neg (by omega)]
    · subst hu
      rw [if_pos rfl, List.append_nil, if_neg hh]
      have hAn : '@' ∉ n := (hP3 hh).1
      have h2 : fi '@' (n ++ '@' :: h) = some n.length := fi_append_cons _ hAn
      by_cases hBang : '!' ∈ n
      · have hhd : n.head? = some '!' := hP4 rfl hBang
        have h1 : fi '!' (n ++ '@' :: h) = some 0 := fi_append_left _ (fi_of_head hhd)
        have hnen : n ≠ [] := by
          intro he
          rw [he] at hBang
          simp at hBang
        have hlen : 0 < n.length := List.length_pos.mpr hnen
        rw [pfxCore_both_gt h1 h2 hlen, if_neg (by omega), if_neg (by omega)]
        rw [take_len_append, drop_append_cons]
      · by_cases hBh : '!' ∈ h
        · by_cases hn : n = []
          · exact absurd hBh (hP6 hn rfl hh)
          · exact absurd ⟨rfl, hh, hn, hBang, hBh⟩ hC
        · have h1 : fi '!' (n ++ '@' :: h) = none := by
            apply fi_of_not_mem
            intro hm
            rcases List.mem_append.mp hm with hm | hm
            · exact hBang hm
            · rcases List.mem_cons.mp hm with hm | hm
              · exact absurd hm (by decide)
              · exact hBh hm
          rw [pfxCore_none_host h1 h2, take_len_append, drop_append_cons]
  · by_cases hh : h = []
    · subst hh
      rw [if_neg hu, if_pos rfl, List.append_nil]
      obtain ⟨hBn, hnen⟩ := hP2 hu
      have h1 : fi '!' (n ++ '!' :: u) = some n.length := fi_append_cons _ hBn
      have hlen : 0 < n.length := List.length_pos.mpr hnen
      by_cases hAn : '@' ∈ n
      · cases hf : fi '@' n with
        | none => exact absurd hAn (fi_eq_none.mp hf)
        | some k =>
          have h2 : fi '@' (n ++ '!' :: u) = some k := fi_append_left _ hf
          have hk : k < n.length := (fi_some hf).1
          rw [pfxCore_both_le h1 h2 (by omega), if_pos hlen, if_pos hlen]
          rw [take_len_append, drop_append_cons]
      · have hAu : '@' ∉ u := fun hm => hAn (hP5 hu rfl hm)
        have h2 : fi '@' (n ++ '!' :: u) = none := by
          apply fi_of_not_mem
          intro hm
          rcases List.mem_append.mp hm with hm | hm
          · exact hAn hm
          · rcases List.mem_cons.mp hm with hm | hm
            · exact absurd hm (by decide)
            · exact hAu hm
        rw [pfxCore_user_none h1 h2, if_pos hlen, if_pos hlen]
        rw [take_len_append, drop_append_cons]
    · rw [if_neg hu, if_neg hh]
      obtain ⟨hBn, hnen⟩ := hP2 hu
      obtain ⟨hAn, hAu⟩ := hP3 hh
      have hlen : 0 < n.length := List.length_pos.mpr hnen
      have h1 : fi '!' ((n ++ '!' :: u) ++ '@' :: h) = some n.length := by
        rw [List.append_assoc, List.cons_append]
        exact fi_append_cons _ hBn
      have h2 : fi '@' ((n ++ '!' :: u) ++ '@' :: h) = some (n ++ '!' :: u).length := by
        apply fi_append_cons
        intro hm
        rcases List.mem_append.mp hm with hm | hm
        · exact hAn hm
        · rcases List.mem_cons.mp hm with hm | hm
          · exact absurd hm (by decide)
          · exact hAu hm
      have hgt : n.length < (n ++ '!' :: u).length := by
        rw [List.length_append, List.length_cons]
        omega
      rw [pfxCore_both_gt h1 h2 hgt, if_pos hlen, if_pos hlen]
      rw [take_len_append, take_len_append, drop_append_cons, drop_append_cons]

theorem parsePfx_not_colon {l : List Char} (h : l.head? ≠ some ':') :
    parsePfx l = (⟨[], [], []⟩, l) := by
  unfold parsePfx
  rw [if_pos h]

theorem parsePfx_colon {body : List Char} (rest : List Char) (hsp : ' ' ∉ body) :
    parsePfx (':' :: (body ++ ' ' :: rest)) = (pfxCore body, rest) := by
  unfold parsePfx
  rw [if_neg (by simp)]
  show (pfxCore (split2c ' ' ((':' :: (body ++ ' ' :: rest)).drop 1)).1,
        (split2c ' ' ((':' :: (body ++ ' ' :: rest)).drop 1)).2) = (pfxCore body, rest)
  have hd : (':' :: (body ++ ' ' :: rest)).drop 1 = body ++ ' ' :: rest := rfl
  rw [hd, split2c_append rest hsp]

theorem parseParams_colon {l : List Char} (h : l.head? = some ':') :
    parseParams l = ([], l) := by
  unfold parseParams
  rw [if_pos (Or.inr h)]

theorem parseParams_nil : parseParams [] = ([], []) := rfl

theorem parseParams_gen {l : List Char} (h1 : l ≠ []) (h2 : l.head? ≠ some ':') :
    parseParams l = (splitAll (split2s ' ' ':' l).1, (split2s ' ' ':' l).2) := by
  unfold parseParams
  rw [if_neg (by tauto)]

/-- Re-parsing the serialized command, params and text sections.  `hA` and
`hE` exclude the information-losing edge cases (`badMsg` clauses (a), (e)). -/
theorem tail_reparse {c : List Char} {ps : List (List Char)} {t : List Char}
    (hc : ' ' ∉ c) (hps : ParamsInv ps)
    (hA : ¬ (ps = [[]] ∧ t = [])) (hE : ¬ (ps ≠ [] ∧ t.head? = some ':')) :
    (parseCommand (c ++ (if ps = [] then [] else ' ' :: joinSp ps)
        ++ (if t = [] then [] else ' ' :: ':' :: t))).1 = c ∧
    (parseParams (parseCommand (c ++ (if ps = [] then [] else ' ' :: joinSp ps)
        ++ (if t = [] then [] else ' ' :: ':' :: t))).2).1 = ps ∧
    (if (parseParams (parseCommand (c ++ (if ps = [] then [] else ' ' :: joinSp ps)
          ++ (if t = [] then [] else ' ' :: ':' :: t))).2).2.head? = some ':'
      then (parseParams (parseCommand (c ++ (if ps = [] then [] else ' ' :: joinSp ps)
          ++ (if t = [] then [] else ' ' :: ':' :: t))).2).2.drop 1
      else (parseParams (parseCommand (c ++ (if ps = [] then [] else ' ' :: joinSp ps)
          ++ (if t = [] then [] else ' ' :: ':' :: t))).2).2) = t := by
  by_cases hp : ps = []
  · subst hp
    rw [if_pos rfl, List.append_nil]
    by_cases ht : t = []
    · subst ht
      rw [if_pos rfl, List.append_nil]
      unfold parseCommand
      rw [split2c_not_mem hc, parseParams_nil]
      exact ⟨rfl, rfl, rfl⟩
    · rw [if_neg ht]
      unfold parseCommand
      rw [split2c_append (':' :: t) hc, parseParams_colon (by simp)]
      refine ⟨rfl, rfl, ?_⟩
      rw [if_pos (by simp)]
      rfl
  · have hsf : ∀ p ∈ ps, ' ' ∉ p := fun p hm => (hps p hm).1
    have hfij : fi2 ' ' ':' (joinSp ps) = none := joinSp_fi2_none hps
    have hjh : (joinSp ps).head? ≠ some ':' :=
      joinSp_head_no_colon (fun p hm => (hps p hm).2)
    rw [if_neg hp]
    have hassoc : c ++ (' ' :: joinSp ps) ++ (if t = [] then [] else ' ' :: ':' :: t)
        = c ++ ' ' :: (joinSp ps ++ (if t = [] then [] else ' ' :: ':' :: t)) := by
      simp [List.append_assoc]
    rw [hassoc]
    unfold parseCommand
    rw [split2c_append _ hc]
    by_cases ht : t = []
    · subst ht
      rw [if_pos rfl, List.append_nil]
      have hnnJ : joinSp ps ≠ [] := by
        refine joinSp_ne_nil hp ?_
        intro hps1
        exact hA ⟨hps1, rfl⟩
      rw [parseParams_gen hnnJ hjh, split2s_none hfij]
      refine ⟨rfl, ?_, rfl⟩
      exact splitAll_joinSp hp hsf
    · rw [if_neg ht]
      have hne : joinSp ps ++ ' ' :: ':' :: t ≠ [] := by simp
      have hhd : (joinSp ps ++ ' ' :: ':' :: t).head? ≠ some ':' := by
        cases hJ : joinSp ps with
        | nil => simp
        | cons z zs =>
          rw [hJ] at hjh
          simpa using hjh
      rw [parseParams_gen hne hhd, split2s_append t hfij]
      refine ⟨rfl, splitAll_joinSp hp hsf, ?_⟩
      rw [if_neg (fun hth => hE ⟨hp, hth⟩)]

theorem parseMessage_eq (l : List Char) :
    parseMessage l = ⟨(parseCommand (parsePfx l).2).1,
      some (parseParams (parseCommand (parsePfx l).2).2).1,
      (parsePfx l).1, l,
      if (parseParams (parseCommand (parsePfx l).2).2).2.head? = some ':'
        then (parseParams (parseCommand (parsePfx l).2).2).2.drop 1
        else (parseParams (parseCommand (parsePfx l).2).2).2⟩ := rfl

theorem serMsg_eq (c : List Char) (ps : List (List Char)) (n u h raw t : List Char) :
    serMsg ⟨c, some ps, ⟨n, u, h⟩, raw, t⟩ =
      (if n = [] ∧ u = [] ∧ h = [] then []
       else ':' :: n ++ (if u = [] then [] else '!' :: u)
            ++ (if h = [] then [] else '@' :: h) ++ [' '])
      ++ c ++ (if ps = [] then [] else ' ' :: joinSp ps)
      ++ (if t = [] then [] else ' ' :: ':' :: t) := rfl

/-- Core of the round-trip property: any message satisfying the structural
invariants of the parser's output and avoiding the `badMsg` edge cases is
recovered (up to `Raw`) by parsing its serialization. -/
theorem reparse_core {n u h c t raw : List Char} {ps : List (List Char)}
    (hPfx : PfxInv ⟨n, u, h⟩) (hps : ParamsInv ps) (hc : ' ' ∉ c)
    (hbad : ¬ badMsg ⟨c, some ps, ⟨n, u, h⟩, raw, t⟩) :
    fieldsEq (parseMessage (serMsg ⟨c, some ps, ⟨n, u, h⟩, raw, t⟩))
      ⟨c, some ps, ⟨n, u, h⟩, raw, t⟩ := by
  simp only [badMsg, not_or] at hbad
  obtain ⟨hA', hB', hC', hD', hE'⟩ := hbad
  have hA : ¬ (ps = [[]] ∧ t = []) := fun ⟨h1, h2⟩ => hA' ⟨by rw [h1], h2⟩
  have hE : ¬ (ps ≠ [] ∧ t.head? = some ':') :=
    fun ⟨h1, h2⟩ => hE' ⟨fun hx => h1 (by simpa using hx), h2⟩
  rw [serMsg_eq]
  by_cases hpe : n = [] ∧ u = [] ∧ h = []
  · obtain ⟨he1, he2, he3⟩ := hpe
    subst he1
    subst he2
    subst he3
    rw [if_pos ⟨rfl, rfl, rfl⟩, List.nil_append]
    have hcy : c.head? ≠ some ':' := fun hch => hB' ⟨rfl, rfl, rfl, hch⟩
    have hhd : (c ++ (if ps = [] then [] else ' ' :: joinSp ps)
        ++ (if t = [] then [] else ' ' :: ':' :: t)).head? ≠ some ':' := by
      cases c with
      | nil =>
        simp only [List.nil_append]
        by_cases hp : ps = []
        · rw [if_pos hp, List.nil_append]
          by_cases ht : t = []
          · rw [if_pos ht]
            simp
          · rw [if_neg ht]
            simp
        · rw [if_neg hp]
          simp
      | cons a c' =>
        simpa using hcy
    obtain ⟨h1, h2, h3⟩ := tail_reparse hc hps hA hE
    rw [parseMessage_eq, parsePfx_not_colon hhd]
    exact ⟨h1, congrArg some h2, rfl, h3⟩
  · rw [if_neg hpe]
    have hPfx2 := hPfx
    simp only [PfxInv] at hPfx2
    obtain ⟨⟨hspn, hspu, hsph⟩, -, -, -, -, -⟩ := hPfx2
    have hbody : ' ' ∉ (n ++ (if u = [] then [] else '!' :: u)
        ++ (if h = [] then [] else '@' :: h)) := by
      intro hm
      rcases List.mem_append.mp hm with hm | hm
      · rcases List.mem_append.mp hm with hm | hm
        · exact hspn hm
        · by_cases hu : u = []
          · rw [if_pos hu] at hm
            simp at hm
          · rw [if_neg hu] at hm
            rcases List.mem_cons.mp hm with hm | hm
            · exact absurd hm (by decide)
            · exact hspu hm
      · by_cases hh : h = []
        · rw [if_pos hh] at hm
          simp at hm
        · rw [if_neg hh] at hm
          rcases List.mem_cons.mp hm with hm | hm
          · exact absurd hm (by decide)
          · exact hsph hm
    have hS : (':' :: n ++ (if u = [] then [] else '!' :: u)
          ++ (if h = [] then [] else '@' :: h) ++ [' '])
        ++ c ++ (if ps = [] then [] else ' ' :: joinSp ps)
        ++ (if t = [] then [] else ' ' :: ':' :: t)
      = ':' :: ((n ++ (if u = [] then [] else '!' :: u)
          ++ (if h = [] then [] else '@' :: h))
          ++ ' ' :: (c ++ (if ps = [] then [] else ' ' :: joinSp ps)
          ++ (if t = [] then [] else ' ' :: ':' :: t))) := by
      simp [List.append_assoc]
    rw [hS, parseMessage_eq, parsePfx_colon _ hbody, pfxCore_reparse hPfx hC' hD']
    obtain ⟨h1, h2, h3⟩ := tail_reparse hc hps hA hE
    exact ⟨h1, congrArg some h2, rfl, h3⟩

/-- The serialization round-trip, proved for every input line whose parse
avoids the `badMsg` edge cases. -/
theorem parse_serialize_parse (l : List Char) (hbad : ¬ badMsg (parseMessage l)) :
    fieldsEq (parseMessage (serMsg (parseMessage l))) (parseMessage l) := by
  have hinvps := parseParams_inv (parseCommand (parsePfx l).2).2
  have hcmd := parseCommand_fst_spacefree (parsePfx l).2
  have hinvP := parsePfx_inv l
  rcases hPp : (parsePfx l).1 with ⟨pn, pu, phst⟩
  rw [hPp] at hinvP
  rw [parseMessage_eq l, hPp] at hbad ⊢
  exact reparse_core hinvP hinvps hcmd hbad

/-! ### The bounds checks never fire -/

theorem dropC_eq {s : List Char} {i : Int} (h0 : 0 ≤ i) (h1 : i ≤ (s.length : Int)) :
    dropC s i = some (s.drop i.toNat) := by
  unfold dropC
  rw [if_pos ⟨h0, h1⟩]

theorem takeC_eq {s : List Char} {i : Int} (h0 : 0 ≤ i) (h1 : i ≤ (s.length : Int)) :
    takeC s i = some (s.take i.toNat) := by
  unfold takeC
  rw [if_pos ⟨h0, h1⟩]

theorem pfxCoreC_eq (head0 : List Char) : pfxCoreC head0 = some (pfxCore head0) := by
  unfold pfxCoreC
  cases h1 : fi '!' head0 with
  | none =>
    cases h2 : fi '@' head0 with
    | none =>
      have hc1 : ¬ ((-1 : Int) > -1) := by omega
      have hc2 : ¬ ((-1 : Int) > 0) := by omega
      simp [goIndex_none h1, goIndex_none h2, hc1, hc2, pfxCore_none_none h1 h2]
    | some kh =>
      have hkh := (fi_some h2).1
      have hc1 : (kh : Int) > -1 := by omega
      have hc2 : ¬ ((-1 : Int) > 0) := by omega
      have hdp : dropC head0 ((kh : Int) + 1) = some (head0.drop (kh + 1)) := by
        rw [dropC_eq (by omega) (by omega)]
        norm_num
      have htk : takeC head0 (kh : Int) = some (head0.take kh) := by
        rw [takeC_eq (by omega) (by omega)]
        norm_num
      simp [goIndex_none h1, goIndex_some h2, hc1, hc2, hdp, htk,
        pfxCore_none_host h1 h2]
  | some ku =>
    have hku := (fi_some h1).1
    cases h2 : fi '@' head0 with
    | none =>
      have hc1 : ¬ ((-1 : Int) > (ku : Int)) := by omega
      have hdp : dropC head0 ((ku : Int) + 1) = some (head0.drop (ku + 1)) := by
        rw [dropC_eq (by omega) (by omega)]
        norm_num
      have htk : takeC head0 (ku : Int) = some (head0.take ku) := by
        rw [takeC_eq (by omega) (by omega)]
        norm_num
      by_cases hk : 0 < ku
      · have hc2 : (ku : Int) > 0 := by omega
        simp [goIndex_some h1, goIndex_none h2, hc1, hc2, hdp, htk,
          pfxCore_user_none h1 h2, hk]
      · have hc2 : ¬ ((ku : Int) > 0) := by omega
        simp [goIndex_some h1, goIndex_none h2, hc1, hc2,
          pfxCore_user_none h1 h2, hk]
    | some kh =>
      have hkh := (fi_some h2).1
      rcases Nat.lt_or_ge ku kh with hlt | hge
      · have hc1 : (kh : Int) > (ku : Int) := by omega
        have hdp : dropC head0 ((kh : Int) + 1) = some (head0.drop (kh + 1)) := by
          rw [dropC_eq (by omega) (by omega)]
          norm_num
        have htk : takeC head0 (kh : Int) = some (head0.take kh) := by
          rw [takeC_eq (by omega) (by omega)]
          norm_num
        have hlen1 : (head0.take kh).length = kh := by
          rw [List.length_take]
          omega
        have hdp2 : dropC (head0.take kh) ((ku : Int) + 1) = some ((head0.take kh).drop (ku + 1)) := by
          rw [dropC_eq (by omega) (by rw [hlen1]; omega)]
          norm_num
        have htk2 : takeC (head0.take kh) (ku : Int) = some ((head0.take kh).take ku) := by
          rw [takeC_eq (by omega) (by rw [hlen1]; omega)]
          norm_num
        by_cases hk : 0 < ku
        · have hc2 : (ku : Int) > 0 := by omega
          simp [goIndex_some h1, goIndex_some h2, hc1, hc2, hdp, htk, hdp2, htk2,
            pfxCore_both_gt h1 h2 hlt, hk]
        · have hc2 : ¬ ((ku : Int) > 0) := by omega
          simp [goIndex_some h1, goIndex_some h2, hc1, hc2, hdp, htk,
            pfxCore_both_gt h1 h2 hlt, hk]
      · have hne : ku ≠ kh := fi_ne_of_ne h1 h2 (by decide)
        have hk : 0 < ku := by omega
        have hc1 : ¬ ((kh : Int) > (ku : Int)) := by omega
        have hc2 : (ku : Int) > 0 := by omega
        have hdp : dropC head0 ((ku : Int) + 1) = some (head0.drop (ku + 1)) := by
          rw [dropC_eq (by omega) (by omega)]
          norm_num
        have htk : takeC head0 (ku : Int) = some (head0.take ku) := by
          rw [takeC_eq (by omega) (by omega)]
          norm_num
        simp [goIndex_some h1, goIndex_some h2, hc1, hc2, hdp, htk,
          pfxCore_both_le h1 h2 hge, hk]

theorem parsePfxC_eq (l : List Char) : parsePfxC l = some (parsePfx l) := by
  unfold parsePfxC parsePfx
  by_cases h0 : l.head? ≠ some ':'
  · rw [if_pos h0, if_pos h0]
  · rw [if_neg h0, if_neg h0]
    push_neg at h0
    have hne : l ≠ [] := by
      intro he
      rw [he] at h0
      cases h0
    have hlp : 0 < l.length := List.length_pos.mpr hne
    have hld : dropC l 1 = some (l.drop 1) := by
      rw [dropC_eq (by omega) (by omega)]
      norm_num
    simp [hld, pfxCoreC_eq]

theorem parseMessageC_eq_parseMessage (l : List Char) :
    parseMessageC l = some (parseMessage l) := by
  unfold parseMessageC
  rw [parsePfxC_eq]
  by_cases hx : (parseParams (parseCommand (parsePfx l).2).2).2.head? = some ':'
  · have hne : (parseParams (parseCommand (parsePfx l).2).2).2 ≠ [] := by
      intro he
      rw [he] at hx
      cases hx
    have hlp : 0 < (parseParams (parseCommand (parsePfx l).2).2).2.length :=
      List.length_pos.mpr hne
    have hld : dropC (parseParams (parseCommand (parsePfx l).2).2).2 1
        = some ((parseParams (parseCommand (parsePfx l).2).2).2.drop 1) := by
      rw [dropC_eq (by omega) (by omega)]
      norm_num
    rw [parseMessage_eq]
    simp [hx, hld]
  · rw [parseMessage_eq]
    simp [hx]

theorem take_append_cons_length {α : Type} (xs : List α) (c : α) (ys : List α) :
    (xs ++ c :: ys).take (xs.length + 1) = xs ++ [c] := by
  induction xs with
  | nil => simp
  | cons a xs ih => simp [ih]

theorem readLine_input {xs ys : List Char} (wire : List (List Char)) (hx : '\n' ∉ xs) :
    Conn.readLine ⟨false, [], xs ++ '\n' :: ys, wire⟩
      = some (xs ++ ['\n'], ⟨false, ys, [], wire⟩) := by
  have hd : fi '\n' (xs ++ '\n' :: ys) = some xs.length := fi_append_cons ys hx
  simp [Conn.readLine, fi, hd, take_append_cons_length xs '\n' ys,
    drop_append_cons xs '\n' ys]

/-! ### The claims -/

/-- **C1.** For every input string `l`, `ParseMessage(l)` terminates without
raising or crashing (every Go bounds check passes, including on the empty
string) and returns a Message whose `Params` field is a non-nil sequence,
possibly empty. -/
theorem c1_parse_total_params_nonnil (l : List Char) :
    parseMessageC l = some (parseMessage l) ∧ (parseMessage l).Params.isSome = true :=
  ⟨parseMessageC_eq_parseMessage l, rfl⟩

/-- **C2 (counterexample).** The claimed round-trip fails as stated: the line
`"C  :"` parses to params `[""]` with empty text; its serialization is `"C "`,
which re-parses to params `[]`. -/
theorem c2_counterexample :
    ¬ fieldsEq (parseMessage (serMsg (parseMessage (str "C  :"))))
      (parseMessage (str "C  :")) := by
  decide

/-- **C2 (amended).** Re-serializing a parsed Message as
`[":" name ["!" user] ["@" host] " "] command [" " params] [" :" text]` and
parsing again yields identical command, params, prefix and text, for every
input line whose parse avoids the `badMsg` edge cases in which the
serialization loses information. -/
theorem c2_roundtrip_amended (l : List Char) (hbad : ¬ badMsg (parseMessage l)) :
    fieldsEq (parseMessage (serMsg (parseMessage l))) (parseMessage l) :=
  parse_serialize_parse l hbad

/-- Witness for **C2 (amended)** at the specification's own example line. -/
theorem c2_roundtrip_witness :
    ¬ badMsg (parseMessage (str ":nick!user@host PRIVMSG #chan :hello world")) ∧
    fieldsEq
      (parseMessage (serMsg (parseMessage (str ":nick!user@host PRIVMSG #chan :hello world"))))
      (parseMessage (str ":nick!user@host PRIVMSG #chan :hello world")) :=
  ⟨by decide, c2_roundtrip_amended (str ":nick!user@host PRIVMSG #chan :hello world") (by decide)⟩

/-- **C3.** `ParseMessage ":nick!user@host PRIVMSG #chan :hello world"`
returns prefix name `"nick"`, user `"user"`, host `"host"`, command
`"PRIVMSG"`, params `["#chan"]`, text `"hello world"` (and `Raw` the line). -/
theorem c3_privmsg_example :
    parseMessage (str ":nick!user@host PRIVMSG #chan :hello world") =
      ⟨str "PRIVMSG", some [str "#chan"], ⟨str "nick", str "user", str "host"⟩,
       str ":nick!user@host PRIVMSG #chan :hello world", str "hello world"⟩ := by
  decide

/-- **C4 (counterexample).** On the line `":!u C"` the prefix body has `"!"`
first and no `"@"`, but the code's `user > 0` guard leaves the user field
empty and puts the whole body (`"!u"`) into the name: the claim's prediction
`user = "u"` fails. -/
theorem c4_counterexample :
    (parseMessage (str ":!u C")).Pfx.User ≠ str "u" ∧
    (parseMessage (str ":!u C")).Pfx.User = [] ∧
    (parseMessage (str ":!u C")).Pfx.Name = str "!u" := by
  decide

/-- **C4 (amended).** For a line `":" body " " rest` whose prefix body
contains `"!"` (first at index `k`) and no `"@"`, the host stays empty, and:
if `k > 0` everything after the first `"!"` becomes the user and everything
before it the name; if `"!"` is the first character (`k = 0`) the user stays
empty and the whole body becomes the name. -/
theorem c4_user_no_at (body rest : List Char) (k : Nat) (hsp : ' ' ∉ body)
    (hat : '@' ∉ body) (hfi : fi '!' body = some k) :
    (parseMessage (':' :: (body ++ ' ' :: rest))).Pfx.Host = [] ∧
    (0 < k → (parseMessage (':' :: (body ++ ' ' :: rest))).Pfx.User = body.drop (k + 1) ∧
             (parseMessage (':' :: (body ++ ' ' :: rest))).Pfx.Name = body.take k) ∧
    (k = 0 → (parseMessage (':' :: (body ++ ' ' :: rest))).Pfx.User = [] ∧
             (parseMessage (':' :: (body ++ ' ' :: rest))).Pfx.Name = body) := by
  have h2 : fi '@' body = none := fi_of_not_mem hat
  have hP : (parseMessage (':' :: (body ++ ' ' :: rest))).Pfx = pfxCore body := by
    rw [parseMessage_eq, parsePfx_colon rest hsp]
  rw [hP, pfxCore_user_none hfi h2]
  by_cases hk : 0 < k
  · rw [if_pos hk, if_pos hk]
    exact ⟨rfl, fun _ => ⟨rfl, rfl⟩, fun h0 => absurd h0 (by omega)⟩
  · rw [if_neg hk, if_neg hk]
    exact ⟨rfl, fun h0 => absurd h0 hk, fun _ => ⟨rfl, rfl⟩⟩

/-- Witness for **C4 (amended)** on the line `":n!u C"`. -/
theorem c4_witness :
    (parseMessage (':' :: (str "n!u" ++ ' ' :: str "C"))).Pfx.Host = [] ∧
    (parseMessage (':' :: (str "n!u" ++ ' ' :: str "C"))).Pfx.User = (str "n!u").drop 2 ∧
    (parseMessage (':' :: (str "n!u" ++ ' ' :: str "C"))).Pfx.Name = (str "n!u").take 1 := by
  obtain ⟨hH, hPos, -⟩ := c4_user_no_at (str "n!u") (str "C") 1 (by decide) (by decide) (by decide)
  obtain ⟨hU, hN⟩ := hPos (by decide)
  exact ⟨hH, hU, hN⟩

/-- **C5.** For every line whose params section is absent and whose remaining
text section is exactly one colon (the remainder after the command is `":"`),
`ParseMessage` yields an empty-string text field and empty params. -/
theorem c5_single_colon_text (l : List Char)
    (h : (parseCommand (parsePfx l).2).2 = [':']) :
    (parseMessage l).Txt = [] ∧ (parseMessage l).Params = some [] := by
  rw [parseMessage_eq, h]
  constructor
  · show (if (parseParams [':']).2.head? = some ':' then (parseParams [':']).2.drop 1
        else (parseParams [':']).2) = []
    decide
  · show some (parseParams [':']).1 = some []
    decide

/-- Witness for **C5** on the line `"PING :"`. -/
theorem c5_witness :
    (parseMessage (str "PING :")).Txt = [] ∧
    (parseMessage (str "PING :")).Params = some [] :=
  c5_single_colon_text (str "PING :") (by decide)

/-- **C6.** For every input string `l`, the `Raw` field of the Message
returned by `ParseMessage(l)` is exactly `l`. -/
theorem c6_raw_preserved (l : List Char) : (parseMessage l).Raw = l := by
  rw [parseMessage_eq]

/-- **C7.** `Send(l)` writes to the underlying stream exactly the bytes of
`l` followed by carriage-return and line-feed, as one `Write` call, and
returns an error exactly when the underlying write fails (closed stream). -/
theorem c7_send_appends_crlf (c : Conn) (l : List Char) :
    Conn.send c l = (Conn.write c (l ++ ['\r', '\n'])).map (·.2) ∧
    Conn.send c l = (if c.closed then none
      else some { c with wire := c.wire ++ [l ++ ['\r', '\n']] }) := by
  refine ⟨rfl, ?_⟩
  unfold Conn.send Conn.write
  by_cases h : c.closed
  · rw [if_pos h, if_pos h]
    rfl
  · rw [if_neg h, if_neg h]
    rfl

/-- **C8 (counterexample).** After `Close()`, a `ReadMsg` can still succeed:
if the internal `bufio` buffer already holds a complete line (here
`"PING\n"`), `ReadString('\n')` serves it from the buffer without touching
the closed stream. -/
theorem c8_counterexample :
    (Conn.readMsg (Conn.close ⟨false, str "PING\n", [], []⟩)).isSome = true := by
  decide

/-- **C8 (amended).** After `Close()`, every `Write` fails, and `ReadMsg`
fails exactly when the internal line buffer does not already hold a complete
(LF-terminated) line; when it does, `ReadMsg` still returns the buffered
message successfully. -/
theorem c8_closed_behaviour (c : Conn) (msg : List Char) :
    Conn.write (Conn.close c) msg = none ∧
    (fi '\n' c.buf = none → Conn.readMsg (Conn.close c) = none) ∧
    (∀ i, fi '\n' c.buf = some i → (Conn.readMsg (Conn.close c)).isSome = true) := by
  refine ⟨?_, ?_, ?_⟩
  · simp [Conn.write, Conn.close]
  · intro hb
    simp [Conn.readMsg, Conn.readLine, Conn.close, hb]
  · intro i hb
    simp [Conn.readMsg, Conn.readLine, Conn.close, hb]

/-- Witness for **C8 (amended)**: a closed connection with an empty buffer
fails both operations; one with a buffered line still reads successfully. -/
theorem c8_witness :
    Conn.write (Conn.close ⟨false, [], [], []⟩) (str "X") = none ∧
    Conn.readMsg (Conn.close ⟨false, [], [], []⟩) = none ∧
    (Conn.readMsg (Conn.close ⟨false, str "PING\n", [], []⟩)).isSome = true :=
  ⟨(c8_closed_behaviour ⟨false, [], [], []⟩ (str "X")).1,
   (c8_closed_behaviour ⟨false, [], [], []⟩ (str "X")).2.1 (by decide),
   (c8_closed_behaviour ⟨false, str "PING\n", [], []⟩ (str "X")).2.2 4 (by decide)⟩

/-- **C10.** `ReadMsg` hands the line to `ParseMessage` with its terminating
`"\r\n"` still attached: on a stream whose next line is `"PING\r\n"`, the
returned Message's `Command` is the string `"PING\r\n"`. -/
theorem c10_readMsg_keeps_terminator (rest : List Char) (wire : List (List Char)) :
    Conn.readMsg ⟨false, [], str "PING\r\n" ++ rest, wire⟩
      = some (parseMessage (str "PING\r\n"), ⟨false, rest, [], wire⟩) ∧
    (parseMessage (str "PING\r\n")).Command = str "PING\r\n" := by
  constructor
  · have heq : str "PING\r\n" ++ rest = (str "PING\r") ++ '\n' :: rest := rfl
    rw [heq]
    unfold Conn.readMsg
    rw [readLine_input wire (by decide)]
    rfl
  · decide
